import Mathlib

/-!
Verification of the keyfile codec (Go package `keyfile`) against its
natural-language specification.  The Go sources are shallowly embedded:
strings are handled as `String`/`List Char`, Go maps as association lists
with replace-or-append insertion, fallible operations as `Except`/`Option`.
Each definition mirrors one Go function (named in its doc comment).
-/

set_option synthInstance.maxSize 512
set_option maxRecDepth 4096
set_option exponentiation.threshold 1100

namespace Keyfile


/-! ### helper.go: `split` -/

/-- One step of `split` (helper.go:66-86).  The Go loop ranges over the
runes of `value` with byte index `i`; a rune `v` is a delimiter when
`string(v) == sep` and the preceding byte (`value[i-1]`) is not `'\\'`
(no preceding check at `i == 0`).  The preceding byte equals `'\\'`
exactly when the preceding rune is `'\\'` (UTF-8 trailing bytes are
≥ 0x80), so we carry the previous rune in `prev`.  On a delimiter the
buffer is emitted; otherwise the rune is appended to the buffer (note:
an escaping backslash has already been appended and is kept).  At the
end the buffer is emitted only if non-empty. -/
def splitAux (sep : String) : List Char → Option Char → List Char → List String → List String
  | [], _, buff, result =>
      if buff.length > 0 then result ++ [String.mk buff.reverse] else result
  | v :: rest, prev, buff, result =>
      if String.mk [v] = sep ∧ prev ≠ some '\\' then
        splitAux sep rest (some v) [] (result ++ [String.mk buff.reverse])
      else
        splitAux sep rest (some v) (v :: buff) result

/-- `split` (helper.go:66-86). -/
def split (value sep : String) : List String :=
  splitAux sep value.data none [] []

/-! ### helper.go: `escape` / `unescape` -/

/-- Left-to-right, non-overlapping replacement of the single character `p`
by `repl`: `strings.ReplaceAll(s, p, repl)` specialised to a
one-character pattern (as used in `escape`, helper.go:104-106). -/
def replaceChar (p : Char) (repl : List Char) : List Char → List Char
  | [] => []
  | c :: rest => (if c = p then repl else [c]) ++ replaceChar p repl rest

/-- Left-to-right, non-overlapping replacement of the two-character
pattern `p q` by the single character `d`:
`strings.ReplaceAll(s, string([p,q]), string([d]))` specialised to a
two-character pattern (as used in `unescape`, helper.go:89-92). -/
def replacePair (p q d : Char) : List Char → List Char
  | [] => []
  | [c] => [c]
  | a :: b :: rest =>
      if a = p ∧ b = q then d :: replacePair p q d rest
      else a :: replacePair p q d (b :: rest)

/-- The character class of the Go `regexp` escape `\s`,
i.e. `[\t\n\f\r ]` (used by `replaceSpaces`, helper.go:97). -/
def isRegexSpace (c : Char) : Bool :=
  c = ' ' ∨ c = '\t' ∨ c = '\n' ∨ c = Char.ofNat 12 ∨ c = '\r'

/-- `replaceSpaces` (helper.go:96-101): the regexp `^\s+|\s+$` matches the
maximal leading whitespace run and the maximal trailing whitespace run of
the remainder; each matched character (all are one byte) is replaced by
the two characters `\s`. -/
def replaceSpacesL (s : List Char) : List Char :=
  let lead := s.takeWhile isRegexSpace
  let rest := s.dropWhile isRegexSpace
  let trail := (rest.reverse.takeWhile isRegexSpace).reverse
  let mid := (rest.reverse.dropWhile isRegexSpace).reverse
  lead.flatMap (fun _ => ['\\', 's']) ++ mid ++ trail.flatMap (fun _ => ['\\', 's'])

/-- `escape` (helper.go:103-109): replace `"\n"`, then `"\r"`, then
`"\t"` by their two-character escapes, then `replaceSpaces`. -/
def escapeL (s : List Char) : List Char :=
  replaceSpacesL
    (replaceChar '\t' ['\\', 't']
      (replaceChar '\r' ['\\', 'r']
        (replaceChar '\n' ['\\', 'n'] s)))

/-- `escape` (helper.go:103-109) on `String`. -/
def escape (s : String) : String := String.mk (escapeL s.data)

/-- `unescape` (helper.go:88-94): replace `"\\s"`, then `"\\n"`, then
`"\\r"`, then `"\\t"` by the characters they denote. -/
def unescapeL (s : List Char) : List Char :=
  replacePair '\\' 't' '\t'
    (replacePair '\\' 'r' '\r'
      (replacePair '\\' 'n' '\n'
        (replacePair '\\' 's' ' ' s)))

/-- `unescape` (helper.go:88-94) on `String`. -/
def unescape (s : String) : String := String.mk (unescapeL s.data)

/-! ### encoder.go: joining a string slice -/

/-- The encode path for a `[]string` field (encoder.go:193-203 together
with the `reflect.String` case at encoder.go:172-173): each element is
encoded with `escape` and the results are joined with the separator by
`strings.Join`.  No occurrence of the separator inside an element is
escaped. -/
def joinEncodedStrings (xs : List String) (sep : String) : String :=
  String.intercalate sep (xs.map escape)

/-! ### keyfile.go: `scanDocument` (the line scanner, keyfile.go:106-177)

The byte stream is modelled as the list of its lines (what successive
`ReadString('\n')` calls yield, without the terminating newline); group
maps (`map[string]map[string]map[string]string`) are modelled as
association lists with unique keys and replace-or-append insertion. -/

/-- `unicode.IsSpace`, i.e. Unicode `White_Space` (used by
`strings.TrimSpace`). -/
def isUnicodeSpace (c : Char) : Bool :=
  c = ' ' ∨ c = '\t' ∨ c = '\n' ∨ c = Char.ofNat 0x0B ∨ c = Char.ofNat 0x0C ∨ c = '\r'
    ∨ c = Char.ofNat 0x85 ∨ c = Char.ofNat 0xA0 ∨ c = Char.ofNat 0x1680
    ∨ (0x2000 ≤ c.toNat ∧ c.toNat ≤ 0x200A)
    ∨ c = Char.ofNat 0x2028 ∨ c = Char.ofNat 0x2029 ∨ c = Char.ofNat 0x202F
    ∨ c = Char.ofNat 0x205F ∨ c = Char.ofNat 0x3000

/-- Drop the longest suffix whose characters satisfy `p`. -/
def dropRightWhile (p : Char → Bool) (s : List Char) : List Char :=
  (s.reverse.dropWhile p).reverse

/-- `strings.TrimSpace`. -/
def trimSpaceL (s : List Char) : List Char :=
  dropRightWhile isUnicodeSpace (s.dropWhile isUnicodeSpace)

/-- `strings.TrimRight(s, "\r\n")` (keyfile.go:121). -/
def trimRightRN (s : List Char) : List Char :=
  dropRightWhile (fun c => c = '\r' ∨ c = '\n') s

/-- `strings.Trim(line, "[]")` (keyfile.go:136): trim every leading and
trailing `'['` or `']'`. -/
def trimBrackets (s : List Char) : List Char :=
  dropRightWhile (fun c => c = '[' ∨ c = ']') (s.dropWhile (fun c => c = '[' ∨ c = ']'))

/-- `strings.SplitN(line, "=", 2)` (keyfile.go:147), returning the parts
around the first `'='`, or `none` when the line has none (in which case
the Go slice has a single element). -/
def splitFirstEq : List Char → Option (List Char × List Char)
  | [] => none
  | c :: rest =>
      if c = '=' then some ([], rest)
      else
        match splitFirstEq rest with
        | some (a, b) => some (c :: a, b)
        | none => none

/-- Largest index at which `c` occurs, if any (`i` is the index of the
head of the list being scanned). -/
def lastIdxOfAux (c : Char) : List Char → Nat → Option Nat
  | [], _ => none
  | x :: rest, i =>
      match lastIdxOfAux c rest (i + 1) with
      | some j => some j
      | none => if x = c then some i else none

def lastIdxOf (c : Char) (s : List Char) : Option Nat := lastIdxOfAux c s 0

/-- `mapValueRgx.FindStringSubmatch(key)` for the regexp
`(.*)\[(.*)\]` (keyfile.go:156, 381): with greedy leftmost-first
semantics the first group ends at the last `'['` that still has a
`']'` after it, and the second group ends at the last `']'`.  Returns
`(submatch 1, submatch 2)`, or `none` when the key contains no such
bracket pair (Go: `len(sm) != 3`). -/
def findBracketSubmatch (s : List Char) : Option (List Char × List Char) :=
  match lastIdxOf ']' s with
  | none => none
  | some j =>
      match lastIdxOf '[' (s.take j) with
      | none => none
      | some i => some (s.take i, (s.drop (i + 1)).take (j - i - 1))

/-- `map[string]string` of sub-key to raw value. -/
abbrev SubMap : Type := List (String × String)

/-- `map[key]map[subkey]value`. -/
abbrev KeyMap : Type := List (String × SubMap)

/-- `map[groupName]map[key]map[subkey]value` (keyfile.go:47). -/
abbrev Groups : Type := List (String × KeyMap)

/-- Association-list lookup (Go map read). -/
def lookupA {β : Type} (k : String) : List (String × β) → Option β
  | [] => none
  | (k', v) :: rest => if k' = k then some v else lookupA k rest

/-- Association-list insert (Go map write): replace the existing binding
or append a new one. -/
def insertA {β : Type} (k : String) (v : β) : List (String × β) → List (String × β)
  | [] => [(k, v)]
  | (k', v') :: rest => if k' = k then (k, v) :: rest else (k', v') :: insertA k v rest

/-- The scanner state carried across lines of `scanDocument`
(fields of `Decoder`, keyfile.go:44-51). -/
structure ScanSt where
  lineNumber : Nat
  currentGroupName : String
  groups : Groups
  deriving Repr

/-- The structural errors `scanDocument` can return (each carries the
trimmed line and the line number, as the Go error structs do). -/
inductive ScanErr where
  | invalidGroupName (line : String) (lineNumber : Nat)
  | invalidEntry (line : String) (lineNumber : Nat)
  | invalidKey (line : String) (lineNumber : Nat)
  | kvOutsideGroup (line : String) (lineNumber : Nat)
  deriving Repr, DecidableEq

/-- The trimming applied to every raw line (keyfile.go:121-122):
`strings.TrimRight(lineRaw, "\r\n")` then `strings.TrimSpace`. -/
def trimmedLine (l : String) : List Char := trimSpaceL (trimRightRN l.data)

instance {ε α : Type} [DecidableEq ε] [DecidableEq α] : DecidableEq (Except ε α) := fun a b =>
  match a, b with
  | .ok x, .ok y =>
      if h : x = y then .isTrue (by rw [h]) else .isFalse (by intro hh; cases hh; exact h rfl)
  | .error x, .error y =>
      if h : x = y then .isTrue (by rw [h]) else .isFalse (by intro hh; cases hh; exact h rfl)
  | .ok _, .error _ => .isFalse (by intro hh; cases hh)
  | .error _, .ok _ => .isFalse (by intro hh; cases hh)

/-- One iteration of the `scanDocument` loop (keyfile.go:107-174) on one
raw line: count the line, trim it, skip blanks and comments, open a
group on `[name]`, otherwise parse a key-value pair bound to the active
group.  (When the active group is non-empty its map always exists in
`groups`, since only a header sets it; the `getD []` defaults are
therefore never exercised on the success path.) -/
def processLine (st : ScanSt) (lineRaw : String) : Except ScanErr ScanSt :=
  let n := st.lineNumber + 1
  let t : List Char := trimmedLine lineRaw
  if t = [] then .ok { st with lineNumber := n }
  else if t.head? = some '#' then .ok { st with lineNumber := n }
  else if t.head? = some '[' ∧ t.getLast? = some ']' then
    let name := String.mk (trimSpaceL (trimBrackets t))
    if name = "" then .error (.invalidGroupName (String.mk t) n)
    else .ok { lineNumber := n, currentGroupName := name, groups := insertA name [] st.groups }
  else
    match splitFirstEq t with
    | none => .error (.invalidEntry (String.mk t) n)
    | some (left, right) =>
      let key0 := trimSpaceL left
      let ks : String × String :=
        match findBracketSubmatch key0 with
        | some (k, sk) => (String.mk k, String.mk sk)
        | none => (String.mk key0, "")
      if ks.1 = "" then .error (.invalidKey (String.mk t) n)
      else if st.currentGroupName = "" then .error (.kvOutsideGroup (String.mk t) n)
      else
        let km := (lookupA st.currentGroupName st.groups).getD []
        let sm := (lookupA ks.1 km).getD []
        let v := unescape (String.mk (trimSpaceL right))
        let groups' := insertA st.currentGroupName (insertA ks.1 (insertA ks.2 v sm) km) st.groups
        .ok { st with lineNumber := n, groups := groups' }

/-- The `scanDocument` loop over all lines. -/
def scanLines : List String → ScanSt → Except ScanErr ScanSt
  | [], st => .ok st
  | l :: rest, st =>
      match processLine st l with
      | .ok st' => scanLines rest st'
      | .error e => .error e

/-- `scanDocument` (keyfile.go:106-177), started from the fresh decoder
state (`NewDecoder`, keyfile.go:53-58). -/
def scanDocument (lines : List String) : Except ScanErr Groups :=
  match scanLines lines ⟨0, "", []⟩ with
  | .ok st => .ok st.groups
  | .error e => .error e

/-! ### strconv: the Go standard-library parsers used by `decodeValue`
and `decodeAnyValue` (keyfile.go:288-321, 365-379)

`strconv.ParseInt`/`ParseUint` (base 10, bitSize 64) are modelled
exactly.  `strconv.ParseFloat`/`ParseComplex` are modelled by Go's own
scanning algorithm (`readFloat`, `special`, `underscoreOK`); the
numeric result is kept as the exact scaled integer
`mantissa · base^exp` (base 10, or base 2 for hexadecimal floats)
instead of the nearest binary64/binary32, and Go's 19-digit mantissa
truncation (which only affects rounding, not acceptance) is not
performed.  A syntactically valid number is rejected exactly when Go
reports a range error, i.e. when its magnitude reaches the overflow
threshold of the target width (half an ulp above the largest finite
value). -/

def isDigit (c : Char) : Bool := '0' ≤ c ∧ c ≤ '9'

def isHexLetter (c : Char) : Bool := ('a' ≤ c ∧ c ≤ 'f') ∨ ('A' ≤ c ∧ c ≤ 'F')

def hexVal (c : Char) : Nat :=
  if isDigit c then c.toNat - '0'.toNat
  else if 'a' ≤ c ∧ c ≤ 'f' then c.toNat - 'a'.toNat + 10
  else if 'A' ≤ c ∧ c ≤ 'F' then c.toNat - 'A'.toNat + 10
  else 0

/-- ASCII lower-casing, as `strconv`'s `lower` does for its
case-insensitive comparisons. -/
def lowerAscii (c : Char) : Char :=
  if 'A' ≤ c ∧ c ≤ 'Z' then Char.ofNat (c.toNat + 32) else c

/-- `strconv.ParseBool`: exactly the twelve listed strings are accepted
(keyfile.go:317 / 372). -/
def parseBool (s : String) : Option Bool :=
  if s = "1" ∨ s = "t" ∨ s = "T" ∨ s = "TRUE" ∨ s = "true" ∨ s = "True" then some true
  else if s = "0" ∨ s = "f" ∨ s = "F" ∨ s = "FALSE" ∨ s = "false" ∨ s = "False" then
    some false
  else none

/-- `strconv.FormatBool` (encoder.go:182). -/
def formatBool (b : Bool) : String := if b then "true" else "false"

/-- `strconv.ParseInt(s, 10, 64)` (keyfile.go:289 / 366): an optional
sign, then a non-empty run of decimal digits (no underscores in base
10), range-checked against int64. -/
def parseInt64 (s : String) : Option Int :=
  match s.data with
  | [] => none
  | c :: rest =>
    let sd : Bool × List Char :=
      if c = '+' then (false, rest) else if c = '-' then (true, rest) else (false, c :: rest)
    if sd.2 = [] ∨ ¬ sd.2.all isDigit then none
    else
      let n : Nat := sd.2.foldl (fun a d => a * 10 + (d.toNat - '0'.toNat)) 0
      if sd.1 then (if n ≤ 2 ^ 63 then some (-(n : Int)) else none)
      else (if n ≤ 2 ^ 63 - 1 then some (n : Int) else none)

/-- The exact value produced by a successful float parse:
`mantissa · 10^exp`, or `mantissa · 2^exp` for a hexadecimal literal
(`isHex`); infinities and NaN from the `special` forms.  Go rounds this
exact value to the nearest binary64/binary32; the rounding is not
modelled. -/
inductive FloatVal where
  | finite (mantissa : Int) (isHex : Bool) (exp : Int)
  | inf (neg : Bool)
  | nan
  deriving DecidableEq, Repr

/-- The exact rational value of a finite `FloatVal`. -/
def FloatVal.toRatQ : FloatVal → Option ℚ
  | .finite m isHex e => some ((m : ℚ) * (if isHex then (2 : ℚ) else 10) ^ e)
  | _ => none

/-- `commonPrefixLenIgnoreCase` from strconv's atof: the length of the
longest common prefix, ASCII-case-insensitively (the pattern is already
lower-case). -/
def commonPrefixLenIgnoreCase : List Char → List Char → Nat
  | c :: s, p :: ps => if lowerAscii c = p then 1 + commonPrefixLenIgnoreCase s ps else 0
  | _, _ => 0

/-- `special` from strconv's atof: an optional sign followed by `inf`
or `infinity` (case-insensitive), or unsigned `nan`; returns the value
and the number of characters consumed. -/
def specialPrefix (s : List Char) : Option (FloatVal × Nat) :=
  match s with
  | [] => none
  | c :: _ =>
    if c = '+' ∨ c = '-' then
      let n := commonPrefixLenIgnoreCase (s.drop 1) "infinity".data
      if n = 3 ∨ n = 8 then some (.inf (c = '-'), 1 + n) else none
    else if c = 'i' ∨ c = 'I' then
      let n := commonPrefixLenIgnoreCase s "infinity".data
      if n = 3 ∨ n = 8 then some (.inf false, n) else none
    else if c = 'n' ∨ c = 'N' then
      if commonPrefixLenIgnoreCase s "nan".data = 3 then some (.nan, 3) else none
    else none

/-- `underscoreOK` from strconv: underscores may appear only between
digits (or directly after a base prefix).  `saw` tracks the class of
the previous character: `'^'` start, `'0'` digit/base prefix, `'_'`
underscore, `'!'` other. -/
def underscoreOKAux (hex : Bool) (saw : Char) : List Char → Bool
  | [] => saw ≠ '_'
  | c :: rest =>
    if isDigit c ∨ (hex ∧ isHexLetter c) then underscoreOKAux hex '0' rest
    else if c = '_' then (saw = '0') && underscoreOKAux hex '_' rest
    else if saw = '_' then false
    else underscoreOKAux hex '!' rest

def underscoreOK (s : List Char) : Bool :=
  let s1 := match s with
    | c :: rest => if c = '-' ∨ c = '+' then rest else s
    | [] => s
  match s1 with
  | '0' :: x :: rest =>
      if lowerAscii x = 'b' ∨ lowerAscii x = 'o' ∨ lowerAscii x = 'x' then
        underscoreOKAux (lowerAscii x = 'x') '0' rest
      else underscoreOKAux false '^' s1
  | _ => underscoreOKAux false '^' s1

/-- State of `readFloat`'s mantissa loop.  `dVal`/`nd` accumulate every
digit including leading zeros (Go skips leading zeros and decrements
`dp` instead, which yields the same exact value `dVal · base^(dp-nd)`),
`dp` is the digit position of the decimal point once `sawdot`. -/
structure MantSt where
  dVal : Nat
  nd : Nat
  sawdot : Bool
  dp : Nat
  sawdigits : Bool
  underscores : Bool
  consumed : Nat
  deriving Repr

/-- The mantissa loop of strconv's `readFloat`: digits, underscores and
at most one `'.'`; stops at the first other character (or a second
`'.'`). -/
def mantLoop (base : Nat) : MantSt → List Char → MantSt × List Char
  | st, [] => (st, [])
  | st, c :: rest =>
    if c = '_' then
      mantLoop base { st with underscores := true, consumed := st.consumed + 1 } rest
    else if c = '.' then
      if st.sawdot then (st, c :: rest)
      else mantLoop base { st with sawdot := true, dp := st.nd, consumed := st.consumed + 1 } rest
    else if isDigit c ∨ (base = 16 ∧ isHexLetter c) then
      mantLoop base
        { st with dVal := st.dVal * base + hexVal c, nd := st.nd + 1, sawdigits := true,
                  consumed := st.consumed + 1 } rest
    else (st, c :: rest)

/-- The exponent-digit loop of `readFloat`: digits and underscores; the
accumulated exponent is capped at 10000 as in Go (the cap can only
matter for values far beyond any float range).  Returns the exponent,
the characters consumed, and whether an underscore was seen. -/
def expLoop : List Char → Int → Nat → Bool → (Int × Nat × Bool × List Char)
  | [], e, consumed, und => (e, consumed, und, [])
  | c :: rest, e, consumed, und =>
    if isDigit c then
      expLoop rest (if e < 10000 then e * 10 + (c.toNat - '0'.toNat) else e) (consumed + 1) und
    else if c = '_' then expLoop rest e (consumed + 1) true
    else (e, consumed, und, c :: rest)

/-- `readFloat` from strconv's atof: optional sign, optional `0x`
prefix (hex requires at least one character after it and a `p`
exponent), mantissa digits with at most one dot, optional
decimal/binary exponent, then the underscore-placement check.  Returns
`(mantissa, isHex, exp, consumed)` with exact value
`mantissa · (if isHex then 2 else 10)^exp`, or `none` when the scan
fails (Go's `ok = false`). -/
def readFloat (s : List Char) : Option (Int × Bool × Int × Nat) :=
  let sd : Bool × Nat × List Char :=
    match s with
    | '+' :: rest => (false, 1, rest)
    | '-' :: rest => (true, 1, rest)
    | _ => (false, 0, s)
  let hx : Bool × Nat × List Char :=
    match sd.2.2 with
    | '0' :: x :: rest =>
        if lowerAscii x = 'x' ∧ rest ≠ [] then (true, 2, rest) else (false, 0, sd.2.2)
    | _ => (false, 0, sd.2.2)
  let hex := hx.1
  let base : Nat := if hex then 16 else 10
  let ml := mantLoop base ⟨0, 0, false, 0, false, false, 0⟩ hx.2.2
  let st := ml.1
  if ¬ st.sawdigits then none
  else
    let dp0 : Int := if st.sawdot then (st.dp : Int) else (st.nd : Int)
    let dp1 : Int := if hex then dp0 * 4 else dp0
    let consumed0 := sd.2.1 + hx.2.1 + st.consumed
    let expChar : Char := if hex then 'p' else 'e'
    let tail : Option (Int × Nat × Bool) :=
      match ml.2 with
      | c :: rest2 =>
        if lowerAscii c = expChar then
          let es : Int × Nat × List Char :=
            match rest2 with
            | '+' :: r3 => (1, 1, r3)
            | '-' :: r3 => (-1, 1, r3)
            | _ => (1, 0, rest2)
          match es.2.2 with
          | d :: _ =>
            if isDigit d then
              let el := expLoop es.2.2 0 0 false
              some (dp1 + es.1 * el.1, consumed0 + 1 + es.2.1 + el.2.1,
                st.underscores ∨ el.2.2.1)
            else none
          | [] => none
        else if hex then none
        else some (dp1, consumed0, st.underscores)
      | [] => if hex then none else some (dp1, consumed0, st.underscores)
    match tail with
    | none => none
    | some (dpF, consF, und) =>
      if und ∧ ¬ underscoreOK (s.take consF) then none
      else
        some ((if sd.1 then -(st.dVal : Int) else (st.dVal : Int)), hex,
          dpF - (if hex then 4 * (st.nd : Int) else (st.nd : Int)), consF)

/-- Whether `|mantissa · base^exp|` reaches the overflow threshold
`t` (an integer in both widths used). -/
def overflowsAbs (m : Int) (isHex : Bool) (e : Int) (t : Nat) : Bool :=
  let b : Nat := if isHex then 2 else 10
  if 0 ≤ e then t ≤ m.natAbs * b ^ e.toNat
  else t * b ^ (-e).toNat ≤ m.natAbs

/-- Half an ulp above the largest finite binary64: decimal values of at
least this magnitude round to infinity and make `ParseFloat` report a
range error. -/
def float64Threshold : Nat := 2 ^ 1024 - 2 ^ 970

/-- Half an ulp above the largest finite binary32. -/
def float32Threshold : Nat := 2 ^ 128 - 2 ^ 103

/-- `strconv.ParseFloat` with `err == nil`: a special form or a
`readFloat` scan that consumes the whole string and does not overflow
the target range. -/
def parseFloatWith (t : Nat) (s : List Char) : Option FloatVal :=
  match specialPrefix s with
  | some (v, n) => if n = s.length then some v else none
  | none =>
    match readFloat s with
    | none => none
    | some (m, isHex, e, n) =>
      if n = s.length then
        if overflowsAbs m isHex e t then none else some (.finite m isHex e)
      else none

/-- `parseFloatPrefix` from strconv (used by `ParseComplex`): like
`ParseFloat` but consuming only a prefix; a range error anywhere makes
`ParseComplex` return a non-nil error, so it is folded into `none`
here. -/
def parseFloatPrefix (t : Nat) (s : List Char) : Option (FloatVal × Nat) :=
  match specialPrefix s with
  | some (v, n) => some (v, n)
  | none =>
    match readFloat s with
    | none => none
    | some (m, isHex, e, n) =>
      if overflowsAbs m isHex e t then none else some (.finite m isHex e, n)

/-- `strconv.ParseComplex` with `err == nil`: `N`, `Ni` or `N±Mi`,
optionally wrapped in one pair of parentheses, each part a float at the
component width (`t` is the component overflow threshold). -/
def parseComplexGo (t : Nat) (s : List Char) : Option (FloatVal × FloatVal) :=
  let inner :=
    if 2 ≤ s.length ∧ s.head? = some '(' ∧ s.getLast? = some ')' then (s.drop 1).dropLast
    else s
  match parseFloatPrefix t inner with
  | none => none
  | some (re, n) =>
    match inner.drop n with
    | [] => some (re, .finite 0 false 0)
    | c :: rest2 =>
      if c = 'i' then (if rest2 = [] then some (.finite 0 false 0, re) else none)
      else if c = '+' ∨ c = '-' then
        let s2 := if c = '+' ∧ (rest2.head? ≠ some '+' ∧ rest2 ≠ []) then rest2 else c :: rest2
        match parseFloatPrefix t s2 with
        | none => none
        | some (im, n2) => if s2.drop n2 = ['i'] then some (re, im) else none
      else none

/-! ### keyfile.go: `decodeAnyValue` and the scalar `decodeValue` cases -/

/-- The tagged value a polymorphic `any` field receives. -/
inductive AnyValue where
  | intV (i : Int)
  | floatV (f : FloatVal)
  | boolV (b : Bool)
  | complexV (re im : FloatVal)
  | strV (s : String)
  deriving DecidableEq, Repr

/-- `decodeAnyValue` (keyfile.go:365-379): try `ParseInt(_, 10, 64)`,
then `ParseFloat(_, 64)`, then `ParseBool`, then `ParseComplex(_, 64)`
(whose components are parsed at float32 width), and fall back to the
string itself. -/
def decodeAnyValue (value : String) : AnyValue :=
  match parseInt64 value with
  | some i => .intV i
  | none =>
  match parseFloatWith float64Threshold value.data with
  | some f => .floatV f
  | none =>
  match parseBool value with
  | some b => .boolV b
  | none =>
  match parseComplexGo float32Threshold value.data with
  | some (re, im) => .complexV re im
  | none => .strV value

/-- The error of a failed scalar conversion (the underlying strconv
error, syntax or range, later wrapped in `ErrCanNotParsed`). -/
inductive ParseErr where
  | malformed
  | outOfRange
  deriving DecidableEq, Repr

/-- The `reflect.Bool` case of `decodeValue` (keyfile.go:316-321):
`strconv.ParseBool` on the raw value. -/
def decodeValueBool (value : String) : Except ParseErr Bool :=
  match parseBool value with
  | some b => .ok b
  | none => .error .malformed

/-- The `reflect.Interface` case of `decodeValue` (keyfile.go:281-283):
`decodeAnyValue` never fails, so the error is always `nil`. -/
def decodeValueAny (value : String) : Except ParseErr AnyValue :=
  .ok (decodeAnyValue value)

/-! ### Line classification and group accumulation for the scanner theorems (C5, C9) -/

/-- A raw line that trims to a blank line or to a comment. -/
def isSkippable (l : String) : Prop :=
  trimmedLine l = [] ∨ (trimmedLine l).head? = some '#'

instance (l : String) : Decidable (isSkippable l) := by
  unfold isSkippable; infer_instance

/-- A raw line whose trimmed form both starts with `'['` and ends with
`']'` (the test at keyfile.go:135 that opens a group). -/
def isHeaderShape (l : String) : Prop :=
  (trimmedLine l).head? = some '[' ∧ (trimmedLine l).getLast? = some ']'

instance (l : String) : Decidable (isHeaderShape l) := by
  unfold isHeaderShape; infer_instance

/-- The key that the scanner would bind a key-value line to, after
trimming and sub-key extraction (keyfile.go:153-159). -/
def kvKeyOf (t : List Char) : String :=
  match splitFirstEq t with
  | none => ""
  | some (left, _) =>
      match findBracketSubmatch (trimSpaceL left) with
      | some (k, _) => String.mk k
      | none => String.mk (trimSpaceL left)

/-- The group name a raw line opens, when the scanner classifies it as a
well-formed group header. -/
def headerNameOf (l : String) : Option String :=
  let t := trimmedLine l
  if t = [] then none
  else if t.head? = some '#' then none
  else if t.head? = some '[' ∧ t.getLast? = some ']' then
    let name := String.mk (trimSpaceL (trimBrackets t))
    if name = "" then none else some name
  else none

/-- The effect of one non-header line on the key map of the active group
(the key-value update at keyfile.go:169-173, with blank and comment
lines leaving the map unchanged). -/
def stepKV (acc : KeyMap) (l : String) : KeyMap :=
  let t := trimmedLine l
  if t = [] then acc
  else if t.head? = some '#' then acc
  else
    match splitFirstEq t with
    | none => acc
    | some (left, right) =>
      let key0 := trimSpaceL left
      let ks : String × String :=
        match findBracketSubmatch key0 with
        | some (k, sk) => (String.mk k, String.mk sk)
        | none => (String.mk key0, "")
      if ks.1 = "" then acc
      else
        let sm := (lookupA ks.1 acc).getD []
        insertA ks.1 (insertA ks.2 (unescape (String.mk (trimSpaceL right))) sm) acc

/-- Folding `stepKV` over a list of lines. -/
def accumEntries (ls : List String) (acc : KeyMap) : KeyMap := ls.foldl stepKV acc

/-! ### encoder.go: `write` (encoder.go:226-275)

The scanned document (`enc.groups`, the same nested map shape as the
decoder's) is rendered deterministically: group names, key names and
sub-key names are each collected and sorted with `sort.Strings`
(modelled by `mergeSort` on `≤`, which produces the same sorted
sequence), and a blank line is printed before every group except the
first. -/

/-- `sort.Strings` (encoder.go:231, 249, 256): the ascending sort of a
list of strings. -/
def sortStrings (l : List String) : List String := l.mergeSort

/-- Sequential output of a list of strings (successive writes to the
buffered writer). -/
def concatList : List String → String
  | [] => ""
  | x :: xs => x ++ concatList xs

/-- One key-value output line (encoder.go:258-266): `key=value` or
`key[subkey]=value`, terminated by `Fprintln`'s newline. -/
def renderLine (k sk v : String) : String :=
  (if sk ≠ "" then k ++ "[" ++ sk ++ "]" else k) ++ "=" ++ v ++ "\n"

/-- The inner sub-key loop for one key (encoder.go:252-270): sub-keys
sorted, each rendered with its value. -/
def renderKey (km : KeyMap) (k : String) : String :=
  let sm := (lookupA k km).getD []
  concatList ((sortStrings (sm.map Prod.fst)).map
    (fun sk => renderLine k sk ((lookupA sk sm).getD "")))

/-- One group block (encoder.go:240-271): the `[name]` header line, then
the keys in sorted order. -/
def renderGroup (doc : Groups) (g : String) : String :=
  let km := (lookupA g doc).getD []
  "[" ++ g ++ "]\n" ++ concatList ((sortStrings (km.map Prod.fst)).map (renderKey km))

/-- The outer group loop (encoder.go:233-272) with its
blank-line-before-every-group-but-the-first behaviour (`i > 0`). -/
def writeLoop (doc : Groups) : List String → Nat → String
  | [], _ => ""
  | g :: rest, i => (if i > 0 then "\n" else "") ++ renderGroup doc g ++ writeLoop doc rest (i + 1)

/-- `write` (encoder.go:226-275). -/
def write (doc : Groups) : String :=
  writeLoop doc (sortStrings (doc.map Prod.fst)) 0

/-- A string that is empty or ends in a newline. -/
def EndsNl (s : String) : Prop := s = "" ∨ s.data.getLast? = some '\n'

/-- Input for the C3 witness. -/
def docW : Groups := [("b", [("k", [("", "v"), ("de", "w")])]), ("a", [("z", [("", "1")])])]

/-! ### Token view of escaped strings (towards C4: `unescape (escape s) = s`)

The escaped string is viewed as a stream of tokens: literal characters
and two-character escapes `\s`, `\n`, `\r`, `\t`.  Each
`strings.ReplaceAll` pass of `unescape` replaces exactly the escape
tokens of its letter, provided no literal backslash is immediately
followed by a literal escape letter (the documented ambiguous case). -/

/-- A token of an escaped string: a literal character, or a
two-character escape `\l`. -/
inductive ETok where
  | lit (c : Char)
  | esc (l : Char)
  deriving DecidableEq, Repr

def ETok.flat : ETok → List Char
  | .lit c => [c]
  | .esc l => ['\\', l]

def flatToks (ts : List ETok) : List Char := ts.flatMap ETok.flat

/-- The four escape letters. -/
def escLetters : List Char := ['s', 'n', 'r', 't']

/-- The character denoted by an escape letter. -/
def decodeLetter (l : Char) : Char :=
  if l = 's' then ' ' else if l = 'n' then '\n' else if l = 'r' then '\r'
  else if l = 't' then '\t' else l

/-- Replace the escape token of letter `L` by a literal `d`. -/
def substTok (L d : Char) : ETok → ETok
  | .esc l => if l = L then .lit d else .esc l
  | .lit c => .lit c

/-- The head token is not a literal escape letter. -/
def headNotLitLetter : List ETok → Prop
  | .lit x :: _ => x ∉ escLetters
  | _ => True

/-- Well-formed token stream: every escape letter is one of the four,
and no literal backslash is immediately followed by a literal escape
letter. -/
def okToks : List ETok → Prop
  | [] => True
  | .esc l :: rest => l ∈ escLetters ∧ okToks rest
  | .lit c :: rest => (c = '\\' → headNotLitLetter rest) ∧ okToks rest

/-- The per-character effect of the three control-character
replacements of `escape` (helper.go:104-106). -/
def enc3 (c : Char) : List Char :=
  if c = '\n' then ['\\', 'n'] else if c = '\r' then ['\\', 'r']
  else if c = '\t' then ['\\', 't'] else [c]

/-- The character class of C4: space, tab, newline, carriage return,
and printable characters (above `0x20`, excluding `DEL`).  This
excludes the other control characters, such as form feed, which
`replaceSpaces` would turn into `\s` irreversibly. -/
def goodChar (c : Char) : Bool :=
  c = ' ' ∨ c = '\t' ∨ c = '\n' ∨ c = '\r' ∨ (0x20 < c.toNat ∧ c.toNat ≠ 0x7F)

/-- The token an interior character of the escaped string becomes. -/
def midTok (c : Char) : ETok :=
  if c = '\n' then .esc 'n' else if c = '\r' then .esc 'r' else if c = '\t' then .esc 't'
  else .lit c

/-- The token stream of `escape s`: the leading spaces of `s` as `\s`
escapes, the interior with its control characters escaped, the trailing
spaces as `\s` escapes. -/
def toksOf (s : List Char) : List ETok :=
  let rest := s.dropWhile (fun c => c = ' ')
  (s.takeWhile (fun c => c = ' ')).map (fun _ => ETok.esc 's') ++
    ((rest.reverse.dropWhile (fun c => c = ' ')).reverse).map midTok ++
    ((rest.reverse.takeWhile (fun c => c = ' ')).reverse).map (fun _ => ETok.esc 's')

/-- A literal backslash in `s` is never immediately followed by an
escape letter (`s`, `n`, `r`, `t`): the documented ambiguous inputs of
the escape codec. -/
def noEscPair : List Char → Prop
  | a :: b :: rest => ¬(a = '\\' ∧ b ∈ escLetters) ∧ noEscPair (b :: rest)
  | _ => True

instance noEscPairDec : (l : List Char) → Decidable (noEscPair l)
  | [] => .isTrue trivial
  | [_] => .isTrue trivial
  | a :: b :: rest => by
      have ih : Decidable (noEscPair (b :: rest)) := noEscPairDec (b :: rest)
      unfold noEscPair
      infer_instance

def subst4 (t : ETok) : ETok :=
  substTok 't' '\t' (substTok 'r' '\r' (substTok 'n' '\n' (substTok 's' ' ' t)))

/-! ## Theorems -/

/-! ### Theorems for C1 and C7 -/

/-- A one-character string never equals a separator of length `> 1`,
so the delimiter test of `split` can never fire. -/
theorem mk_single_ne_of_length (sep : String) (h : 1 < sep.length) (v : Char) :
    String.mk [v] ≠ sep := by
  intro hEq
  have hlen : (String.mk [v]).length = sep.length := by rw [hEq]
  have h1 : (String.mk [v]).length = 1 := rfl
  omega

theorem splitAux_no_delimiter (sep : String) (h : ∀ v : Char, String.mk [v] ≠ sep) :
    ∀ (cs : List Char) (prev : Option Char) (buff : List Char) (result : List String),
      splitAux sep cs prev buff result =
        if 0 < (buff.reverse ++ cs).length then result ++ [String.mk (buff.reverse ++ cs)]
        else result := by
  intro cs
  induction cs with
  | nil =>
      intro prev buff result
      simp [splitAux]
  | cons v rest ih =>
      intro prev buff result
      rw [splitAux]
      rw [if_neg (by rintro ⟨h1, -⟩; exact h v h1)]
      rw [ih]
      simp

/-- C7: the claim fails on the code.  For the two-character separator
`"<>"`, the unescaped occurrence of the separator in `"ab<>cd"` does
not delimit: `split` returns the whole value as a single segment
instead of `["ab", "cd"]`. -/
theorem split_multichar_counterexample :
    split "ab<>cd" "<>" ≠ ["ab", "cd"] ∧ split "ab<>cd" "<>" = ["ab<>cd"] := by
  constructor
  · decide
  · decide

/-- C7 (amended): `split` compares one rune at a time against the whole
separator string, so a separator of length greater than one never
matches anything: `split` returns the empty list on the empty value and
otherwise the whole value as a single segment.  In particular no
occurrence of a multi-character separator—escaped or not—ever
delimits. -/
theorem split_multichar_never_splits (value sep : String) (h : 1 < sep.length) :
    split value sep = if value = "" then [] else [value] := by
  unfold split
  rw [splitAux_no_delimiter sep (mk_single_ne_of_length sep h)]
  obtain ⟨data⟩ := value
  match data with
  | [] => simp
  | c :: cs =>
      rw [if_pos (by simp)]
      rw [if_neg (by intro hEq; exact (by simpa using congrArg String.data hEq))]
      simp

/-- C7 amended, witnessed at `value = "ab<>cd"`, `sep = "<>"`. -/
theorem split_multichar_never_splits_witness :
    1 < ("<>" : String).length ∧
      split "ab<>cd" "<>" = if ("ab<>cd" : String) = "" then [] else ["ab<>cd"] :=
  ⟨by decide, split_multichar_never_splits "ab<>cd" "<>" (by decide)⟩

/-! ### Theorems for C2, C6 and C10 -/

/-- C2: `decodeAnyValue` tries signed-integer, float, boolean and
complex parsing in that order and falls back to the string: `"42"`
yields the integer 42; `"42.5"` yields a float of exact value 85/2 (the
integer attempt rejects the non-integer lexical form instead of
truncating); `"true"` yields the boolean true (not an integer);
`"10+11i"` yields the complex value (10, 11); `"value"` yields the
string itself. -/
theorem decodeAnyValue_precedence :
    decodeAnyValue "42" = .intV 42 ∧
    decodeAnyValue "42.5" = .floatV (.finite 425 false (-1)) ∧
    FloatVal.toRatQ (.finite 425 false (-1)) = some (85 / 2 : ℚ) ∧
    decodeAnyValue "true" = .boolV true ∧
    decodeAnyValue "10+11i" = .complexV (.finite 10 false 0) (.finite 11 false 0) ∧
    FloatVal.toRatQ (.finite 10 false 0) = some (10 : ℚ) ∧
    FloatVal.toRatQ (.finite 11 false 0) = some (11 : ℚ) ∧
    decodeAnyValue "value" = .strV "value" := by
  refine ⟨by decide, by decide, ?_, by decide, by decide, ?_, ?_, by decide⟩ <;>
    norm_num [FloatVal.toRatQ]

/-- C6: the claim fails on the code.  Boolean decoding is not
case-insensitive over every casing: `strconv.ParseBool` rejects the
casing `"tRUE"` (and any mixed casing outside its fixed list), so the
bool case of `decodeValue` returns an error for it. -/
theorem bool_not_fully_case_insensitive :
    decodeValueBool "tRUE" = .error .malformed ∧
      decodeValueBool "TrUe" = .error .malformed := by
  constructor
  · decide
  · decide

/-- C6 (amended): boolean decoding accepts exactly the
`strconv.ParseBool` forms - `1`, `t`, `T`, `TRUE`, `true`, `True` for
true and `0`, `f`, `F`, `FALSE`, `false`, `False` for false - rather
than every casing of the letters; encoding always emits the canonical
lowercase `true`/`false`. -/
theorem parseBool_true_iff (s : String) :
    parseBool s = some true ↔ s ∈ (["1", "t", "T", "TRUE", "true", "True"] : List String) := by
  unfold parseBool
  by_cases h1 : s = "1" ∨ s = "t" ∨ s = "T" ∨ s = "TRUE" ∨ s = "true" ∨ s = "True"
  · simp [h1]
  · rw [if_neg h1]
    by_cases h2 : s = "0" ∨ s = "f" ∨ s = "F" ∨ s = "FALSE" ∨ s = "false" ∨ s = "False"
    · simp [h1, h2]
    · simp [h1, h2]

theorem parseBool_false_iff (s : String) :
    parseBool s = some false ↔ s ∈ (["0", "f", "F", "FALSE", "false", "False"] : List String) := by
  unfold parseBool
  by_cases h1 : s = "1" ∨ s = "t" ∨ s = "T" ∨ s = "TRUE" ∨ s = "true" ∨ s = "True"
  · have hno : ¬ s ∈ (["0", "f", "F", "FALSE", "false", "False"] : List String) := by
      rcases h1 with h | h | h | h | h | h <;> subst h <;> decide
    simp [h1, hno]
  · rw [if_neg h1]
    by_cases h2 : s = "0" ∨ s = "f" ∨ s = "F" ∨ s = "FALSE" ∨ s = "false" ∨ s = "False"
    · simp [h1, h2]
    · simp [h1, h2]

theorem bool_casing_amended :
    (∀ s : String,
        parseBool s = some true ↔ s ∈ (["1", "t", "T", "TRUE", "true", "True"] : List String)) ∧
    (∀ s : String,
        parseBool s = some false ↔
          s ∈ (["0", "f", "F", "FALSE", "false", "False"] : List String)) ∧
    decodeValueBool "TRUE" = .ok true ∧ decodeValueBool "True" = .ok true ∧
    decodeValueBool "true" = .ok true ∧ decodeValueBool "FALSE" = .ok false ∧
    decodeValueBool "False" = .ok false ∧ decodeValueBool "false" = .ok false ∧
    formatBool true = "true" ∧ formatBool false = "false" :=
  ⟨parseBool_true_iff, parseBool_false_iff, by decide, by decide, by decide, by decide,
    by decide, by decide, by decide, by decide⟩

/-- C6 amended, applied at `s = "True"`. -/
theorem bool_casing_amended_witness :
    parseBool "True" = some true ↔
      "True" ∈ (["1", "t", "T", "TRUE", "true", "True"] : List String) :=
  bool_casing_amended.1 "True"

/-- C10: decoding into an `any` (interface-typed) field is total: the
interface case of `decodeValue` always returns a nil error
(keyfile.go:281-283), and when every parse attempt fails the fallback
chain of `decodeAnyValue` ends in the string itself. -/
theorem decodeValueAny_total (s : String) :
    decodeValueAny s = .ok (decodeAnyValue s) ∧
      ((parseInt64 s = none ∧ parseFloatWith float64Threshold s.data = none ∧
          parseBool s = none ∧ parseComplexGo float32Threshold s.data = none) →
        decodeAnyValue s = .strV s) := by
  refine ⟨rfl, ?_⟩
  rintro ⟨h1, h2, h3, h4⟩
  unfold decodeAnyValue
  rw [h1, h2, h3, h4]

/-- C10, witnessed at `s = "value"`, where every parse attempt fails. -/
theorem decodeValueAny_total_witness :
    (parseInt64 "value" = none ∧ parseFloatWith float64Threshold "value".data = none ∧
        parseBool "value" = none ∧ parseComplexGo float32Threshold "value".data = none) ∧
      decodeValueAny "value" = .ok (decodeAnyValue "value") ∧
      decodeAnyValue "value" = .strV "value" :=
  ⟨by decide, (decodeValueAny_total "value").1, (decodeValueAny_total "value").2 (by decide)⟩

theorem processLine_skippable (st : ScanSt) (l : String) (h : isSkippable l) :
    processLine st l = .ok { st with lineNumber := st.lineNumber + 1 } := by
  unfold processLine
  rcases h with h | h
  · simp [h]
  · have hne : trimmedLine l ≠ [] := by
      intro he; rw [he] at h; simp at h
    simp [hne, h]

theorem scanLines_append (xs ys : List String) (st : ScanSt) :
    scanLines (xs ++ ys) st =
      match scanLines xs st with
      | .ok st' => scanLines ys st'
      | .error e => .error e := by
  induction xs generalizing st with
  | nil => simp [scanLines]
  | cons l rest ih =>
      simp only [List.cons_append, scanLines]
      cases processLine st l with
      | ok st' => exact ih st'
      | error e => rfl

theorem scanLines_cons (l : String) (rest : List String) (st : ScanSt) :
    scanLines (l :: rest) st =
      match processLine st l with
      | .ok st' => scanLines rest st'
      | .error e => .error e := rfl

theorem scanLines_skippable (pre : List String) (st : ScanSt)
    (hpre : ∀ x ∈ pre, isSkippable x) :
    scanLines pre st = .ok { st with lineNumber := st.lineNumber + pre.length } := by
  induction pre generalizing st with
  | nil => simp [scanLines]
  | cons l rest ih =>
      rw [scanLines_cons, processLine_skippable st l (hpre l (by simp))]
      show scanLines rest { st with lineNumber := st.lineNumber + 1 } = _
      rw [ih _ (fun x hx => hpre x (by simp [hx]))]
      have h2 : st.lineNumber + 1 + rest.length = st.lineNumber + (rest.length + 1) := by omega
      simp [h2]

/-- C5: a document whose first non-comment, non-blank line is a key-value
line (it is not bracket-delimited, contains a `'='`, and has a non-empty
key) while no group is active fails with the key-value-outside-group
structural error, carrying that trimmed line and its 1-based line
number; no implicit group is created. -/
theorem scan_first_kv_outside_group (pre : List String) (l : String) (rest : List String)
    (hpre : ∀ x ∈ pre, isSkippable x)
    (hnb : trimmedLine l ≠ [])
    (hnc : (trimmedLine l).head? ≠ some '#')
    (hnh : ¬ isHeaderShape l)
    (heq : (splitFirstEq (trimmedLine l)).isSome)
    (hkey : kvKeyOf (trimmedLine l) ≠ "") :
    scanDocument (pre ++ l :: rest) =
      .error (.kvOutsideGroup (String.mk (trimmedLine l)) (pre.length + 1)) := by
  unfold scanDocument
  rw [scanLines_append, scanLines_skippable pre _ hpre]
  show (match scanLines (l :: rest) _ with
        | .ok st => Except.ok st.groups
        | .error e => Except.error e) = _
  rw [scanLines_cons]
  rcases hsp : splitFirstEq (trimmedLine l) with - | ⟨left, right⟩
  · rw [hsp] at heq; simp at heq
  · have hks : kvKeyOf (trimmedLine l) ≠ "" := hkey
    unfold kvKeyOf at hks
    rw [hsp] at hks
    simp only at hks
    unfold processLine
    rw [if_neg hnb, if_neg hnc, if_neg (by exact hnh), hsp]
    rcases hfb : findBracketSubmatch (trimSpaceL left) with - | ⟨k, sk⟩ <;>
      rw [hfb] at hks <;>
      simp [hfb, hks]

/-- C5, witnessed on the concrete document
`["# note", "", "   ", "key = 1", "[g]"]`. -/
theorem scan_first_kv_outside_group_witness :
    (∀ x ∈ (["# note", "", "   "] : List String), isSkippable x) ∧
      scanDocument (["# note", "", "   "] ++ "key = 1" :: ["[g]"]) =
        .error (.kvOutsideGroup (String.mk (trimmedLine "key = 1"))
          ((["# note", "", "   "] : List String).length + 1)) :=
  ⟨by decide,
    scan_first_kv_outside_group ["# note", "", "   "] "key = 1" ["[g]"]
      (by decide) (by decide) (by decide) (by decide) (by decide) (by decide)⟩

theorem lookupA_insertA_self {β : Type} (k : String) (v : β) (m : List (String × β)) :
    lookupA k (insertA k v m) = some v := by
  induction m with
  | nil => simp [insertA, lookupA]
  | cons hd tl ih =>
      obtain ⟨k', v'⟩ := hd
      by_cases h : k' = k <;> simp [insertA, lookupA, h, ih]

theorem processLine_ok_not_header (st st1 : ScanSt) (l : String) (g : String)
    (hg : st.currentGroupName = g) (hgne : g ≠ "")
    (hsome : (lookupA g st.groups).isSome)
    (hnh : ¬ isHeaderShape l)
    (hok : processLine st l = .ok st1) :
    st1.currentGroupName = g ∧
      lookupA g st1.groups = some (stepKV ((lookupA g st.groups).getD []) l) := by
  obtain ⟨acc, hacc⟩ := Option.isSome_iff_exists.mp hsome
  unfold processLine at hok
  unfold stepKV
  by_cases h1 : trimmedLine l = []
  · simp only [h1, if_pos rfl] at hok ⊢
    simp only [↓reduceIte] at hok
    cases hok
    simp [hg, hacc]
  · rw [if_neg h1] at hok ⊢
    by_cases h2 : (trimmedLine l).head? = some '#'
    · rw [if_pos h2] at hok
      rw [if_pos h2]
      cases hok
      simp [hg, hacc]
    · rw [if_neg h2] at hok ⊢
      rw [if_neg (by exact hnh)] at hok
      rcases hsp : splitFirstEq (trimmedLine l) with - | ⟨left, right⟩
      · rw [hsp] at hok; cases hok
      · rw [hsp] at hok
        simp only [hsp]
        rcases hfb : findBracketSubmatch (trimSpaceL left) with - | ⟨k, sk⟩ <;>
          simp only [hfb] at hok ⊢
        · by_cases hk : String.mk (trimSpaceL left) = ""
          · simp only [hk, if_pos rfl] at hok; cases hok
          · rw [if_neg hk] at hok ⊢
            rw [hg, if_neg hgne] at hok
            cases hok
            simp [hg, hacc, lookupA_insertA_self]
        · by_cases hk : String.mk k = ""
          · simp only [hk, if_pos rfl] at hok; cases hok
          · rw [if_neg hk] at hok ⊢
            rw [hg, if_neg hgne] at hok
            cases hok
            simp [hg, hacc, lookupA_insertA_self]

theorem scanLines_no_header (g : String) (hgne : g ≠ "") :
    ∀ (post : List String) (st st' : ScanSt),
      st.currentGroupName = g →
      (∀ l ∈ post, ¬ isHeaderShape l) →
      (lookupA g st.groups).isSome →
      scanLines post st = .ok st' →
      lookupA g st'.groups = some (accumEntries post ((lookupA g st.groups).getD [])) := by
  intro post
  induction post with
  | nil =>
      intro st st' hg hpost hsome hok
      obtain ⟨acc, hacc⟩ := Option.isSome_iff_exists.mp hsome
      cases hok
      simp [accumEntries, hacc]
  | cons l rest ih =>
      intro st st' hg hpost hsome hok
      rw [scanLines_cons] at hok
      rcases hpl : processLine st l with e | st1
      · rw [hpl] at hok; cases hok
      · rw [hpl] at hok
        obtain ⟨hg1, hl1⟩ :=
          processLine_ok_not_header st st1 l g hg hgne hsome (hpost l (by simp)) hpl
        have hsome1 : (lookupA g st1.groups).isSome := by rw [hl1]; rfl
        have := ih st1 st' hg1 (fun x hx => hpost x (by simp [hx])) hsome1 hok
        rw [this, hl1]
        simp [accumEntries]

/-- The scanner classifies `l` as a well-formed group header opening `g`
exactly when `headerNameOf l = some g`; in that case the line resets the
accumulated entries of `g` (keyfile.go:142). -/
theorem processLine_header (st : ScanSt) (l : String) (g : String)
    (h : headerNameOf l = some g) :
    processLine st l =
      .ok ⟨st.lineNumber + 1, g, insertA g [] st.groups⟩ := by
  unfold headerNameOf at h
  unfold processLine
  by_cases h1 : trimmedLine l = []
  · simp [h1] at h
  · rw [if_neg h1] at h ⊢
    by_cases h2 : (trimmedLine l).head? = some '#'
    · simp [h2] at h
    · rw [if_neg h2] at h ⊢
      by_cases h3 : (trimmedLine l).head? = some '[' ∧ (trimmedLine l).getLast? = some ']'
      · rw [if_pos h3] at h ⊢
        by_cases h4 : String.mk (trimSpaceL (trimBrackets (trimmedLine l))) = ""
        · simp [h4] at h
        · simp only [h4, if_neg h4] at h ⊢
          simp at h
          simp [h]
      · simp [h3] at h

/-- C9: when a group header `[g]` is re-encountered, every entry
previously accumulated under `g` is discarded (keyfile.go:142 installs a
fresh empty map).  After a successful scan of `pre ++ hdr :: post`,
where `hdr` is a well-formed header for `g` and `post` contains no
further header line, the entries of `g` are exactly those accumulated
from `post` alone, whatever `pre` contained. -/
theorem scan_reopened_group_discards (pre : List String) (hdr : String) (post : List String)
    (g : String) (m : Groups)
    (hhdr : headerNameOf hdr = some g)
    (hpost : ∀ l ∈ post, ¬ isHeaderShape l)
    (hok : scanDocument (pre ++ hdr :: post) = .ok m) :
    lookupA g m = some (accumEntries post []) := by
  have hgne : g ≠ "" := by
    unfold headerNameOf at hhdr
    by_cases h1 : trimmedLine hdr = []
    · simp [h1] at hhdr
    · rw [if_neg h1] at hhdr
      by_cases h2 : (trimmedLine hdr).head? = some '#'
      · simp [h2] at hhdr
      · rw [if_neg h2] at hhdr
        by_cases h3 : (trimmedLine hdr).head? = some '[' ∧ (trimmedLine hdr).getLast? = some ']'
        · rw [if_pos h3] at hhdr
          by_cases h4 : String.mk (trimSpaceL (trimBrackets (trimmedLine hdr))) = ""
          · simp [h4] at hhdr
          · simp only [if_neg h4] at hhdr
            simp at hhdr
            rw [← hhdr]
            exact h4
        · simp [h3] at hhdr
  unfold scanDocument at hok
  rcases hsl : scanLines (pre ++ hdr :: post) ⟨0, "", []⟩ with e | stF
  · rw [hsl] at hok; cases hok
  · rw [hsl] at hok
    cases hok
    rw [scanLines_append] at hsl
    rcases hp : scanLines pre ⟨0, "", []⟩ with e | st1
    · rw [hp] at hsl; cases hsl
    · rw [hp] at hsl
      simp only at hsl
      rw [scanLines_cons, processLine_header st1 hdr g hhdr] at hsl
      simp only at hsl
      have hsome : (lookupA g (insertA g ([] : KeyMap) st1.groups)).isSome := by
        rw [lookupA_insertA_self]; rfl
      have := scanLines_no_header g hgne post ⟨st1.lineNumber + 1, g, insertA g [] st1.groups⟩
        stF rfl hpost hsome hsl
      rw [this]
      rw [lookupA_insertA_self]
      rfl

/-- C9, witnessed on the concrete document
`["[g]", "a=1", "[g]", "b=2"]`: the re-opened group `g` holds only the
entry from `b=2`; the entry `a=1` accumulated before the second header
is discarded. -/
theorem scan_reopened_group_discards_witness :
    headerNameOf "[g]" = some "g" ∧
      scanDocument ["[g]", "a=1", "[g]", "b=2"] =
        .ok [("g", [("b", [("", "2")])])] ∧
      lookupA "g" [("g", [("b", [("", "2")])])] =
        some (accumEntries ["b=2"] []) :=
  ⟨by decide, by decide,
    scan_reopened_group_discards ["[g]", "a=1"] "[g]" ["b=2"] "g"
      [("g", [("b", [("", "2")])])] (by decide) (by decide) (by decide)⟩

/-! ### Theorems for C3 -/

theorem interGo_eq (s : String) :
    ∀ (as : List String) (acc : String),
      String.intercalate.go acc s as = acc ++ concatList (as.map (fun a => s ++ a)) := by
  intro as
  induction as with
  | nil => intro acc; simp [String.intercalate.go, concatList]
  | cons a as ih =>
      intro acc
      rw [String.intercalate.go, ih]
      simp [concatList, String.append_assoc]

theorem intercalate_eq_concatList (s x : String) (xs : List String) :
    String.intercalate s (x :: xs) = x ++ concatList (xs.map (fun a => s ++ a)) := by
  rw [String.intercalate, interGo_eq]

theorem writeLoop_pos (doc : Groups) :
    ∀ (gs : List String) (i : Nat),
      writeLoop doc gs (i + 1) = concatList (gs.map (fun g => "\n" ++ renderGroup doc g)) := by
  intro gs
  induction gs with
  | nil => intro i; rfl
  | cons g rest ih =>
      intro i
      rw [writeLoop, ih]
      simp [concatList, String.append_assoc]

theorem write_eq_intercalate (doc : Groups) :
    write doc = String.intercalate "\n" ((sortStrings (doc.map Prod.fst)).map (renderGroup doc)) := by
  unfold write
  rcases hgs : sortStrings (doc.map Prod.fst) with - | ⟨g, rest⟩
  · rfl
  · rw [writeLoop, writeLoop_pos, List.map_cons, intercalate_eq_concatList]
    simp [List.map_map, Function.comp_def]

theorem endsNl_append_full (a b : String) (ha : a.data.getLast? = some '\n') (hb : EndsNl b) :
    (a ++ b).data.getLast? = some '\n' := by
  rcases hb with hb | hb
  · subst hb
    simpa [String.data_append] using ha
  · rw [String.data_append, List.getLast?_append_of_ne_nil]
    · exact hb
    · intro hnil
      rw [hnil] at hb
      simp at hb

theorem renderLine_endsNl (k sk v : String) :
    (renderLine k sk v).data.getLast? = some '\n' := by
  unfold renderLine
  rw [String.data_append]
  have : ("\n" : String).data = ['\n'] := rfl
  rw [this, List.getLast?_concat]

theorem concatList_endsNl (xs : List String) (h : ∀ x ∈ xs, EndsNl x) :
    EndsNl (concatList xs) := by
  induction xs with
  | nil => left; rfl
  | cons x xs ih =>
      have hx := h x (by simp)
      have hrest := ih (fun y hy => h y (by simp [hy]))
      rcases hx with hx | hx
      · subst hx
        have : ("" : String) ++ concatList xs = concatList xs := by
          apply String.ext
          simp [String.data_append]
        rw [concatList, this]
        exact hrest
      · right
        rw [concatList]
        exact endsNl_append_full x _ hx hrest

theorem renderKey_endsNl (km : KeyMap) (k : String) : EndsNl (renderKey km k) := by
  unfold renderKey
  apply concatList_endsNl
  intro x hx
  simp only [List.mem_map] at hx
  obtain ⟨sk, -, hsk⟩ := hx
  right
  rw [← hsk]
  exact renderLine_endsNl _ _ _

theorem renderGroup_endsNl (doc : Groups) (g : String) :
    (renderGroup doc g).data.getLast? = some '\n' := by
  unfold renderGroup
  apply endsNl_append_full
  · rw [String.data_append]
    have h2 : ("]\n" : String).data = [']', '\n'] := rfl
    rw [h2]
    rw [show ([']', '\n'] : List Char) = [']'] ++ ['\n'] from rfl, ← List.append_assoc]
    exact List.getLast?_concat _
  · apply concatList_endsNl
    intro x hx
    simp only [List.mem_map] at hx
    obtain ⟨k, -, hk⟩ := hx
    rw [← hk]
    exact renderKey_endsNl _ _

/-- C3: for every scanned document, `write` emits a deterministic text:
the group blocks appear in lexicographically sorted order of the group
names, joined by a single extra newline (each block itself ends in a
newline, so consecutive groups are separated by exactly one blank
line); within each group the keys are sorted, and within each key the
sub-keys are sorted; the sorted sequences are permutations of the
document's own, so nothing is added or lost. -/
theorem write_deterministic (doc : Groups) :
    write doc = String.intercalate "\n" ((sortStrings (doc.map Prod.fst)).map (renderGroup doc)) ∧
    List.Sorted (· ≤ ·) (sortStrings (doc.map Prod.fst)) ∧
    (sortStrings (doc.map Prod.fst)).Perm (doc.map Prod.fst) ∧
    (∀ g, (renderGroup doc g).data.getLast? = some '\n') ∧
    (∀ g km, lookupA g doc = some km →
      renderGroup doc g =
        "[" ++ g ++ "]\n" ++ concatList ((sortStrings (km.map Prod.fst)).map (renderKey km)) ∧
      List.Sorted (· ≤ ·) (sortStrings (km.map Prod.fst)) ∧
      (sortStrings (km.map Prod.fst)).Perm (km.map Prod.fst)) ∧
    (∀ (km : KeyMap) (k : String) (sm : SubMap), lookupA k km = some sm →
      renderKey km k =
        concatList ((sortStrings (sm.map Prod.fst)).map
          (fun sk => renderLine k sk ((lookupA sk sm).getD ""))) ∧
      List.Sorted (· ≤ ·) (sortStrings (sm.map Prod.fst)) ∧
      (sortStrings (sm.map Prod.fst)).Perm (sm.map Prod.fst)) := by
  refine ⟨write_eq_intercalate doc, List.sorted_mergeSort' _, List.mergeSort_perm _ _,
    renderGroup_endsNl doc, ?_, ?_⟩
  · intro g km h
    refine ⟨?_, List.sorted_mergeSort' _, List.mergeSort_perm _ _⟩
    unfold renderGroup
    rw [h]
    rfl
  · intro km k sm h
    refine ⟨?_, List.sorted_mergeSort' _, List.mergeSort_perm _ _⟩
    unfold renderKey
    rw [h]
    rfl

/-- C3, witnessed on `docW`: the group and key conjuncts applied at the
concrete bindings. -/
theorem write_deterministic_witness :
    (lookupA "b" docW = some [("k", [("", "v"), ("de", "w")])] ∧
      lookupA "k" ([("k", [("", "v"), ("de", "w")])] : KeyMap) = some [("", "v"), ("de", "w")]) ∧
    (renderGroup docW "b" =
        "[" ++ "b" ++ "]\n" ++
          concatList ((sortStrings (([("k", [("", "v"), ("de", "w")])] : KeyMap).map
            Prod.fst)).map (renderKey [("k", [("", "v"), ("de", "w")])])) ∧
      List.Sorted (· ≤ ·)
        (sortStrings (([("k", [("", "v"), ("de", "w")])] : KeyMap).map Prod.fst)) ∧
      (sortStrings (([("k", [("", "v"), ("de", "w")])] : KeyMap).map Prod.fst)).Perm
        (([("k", [("", "v"), ("de", "w")])] : KeyMap).map Prod.fst)) ∧
    (renderKey ([("k", [("", "v"), ("de", "w")])] : KeyMap) "k" =
        concatList ((sortStrings (([("", "v"), ("de", "w")] : SubMap).map Prod.fst)).map
          (fun sk => renderLine "k" sk ((lookupA sk ([("", "v"), ("de", "w")] : SubMap)).getD ""))) ∧
      List.Sorted (· ≤ ·) (sortStrings (([("", "v"), ("de", "w")] : SubMap).map Prod.fst)) ∧
      (sortStrings (([("", "v"), ("de", "w")] : SubMap).map Prod.fst)).Perm
        (([("", "v"), ("de", "w")] : SubMap).map Prod.fst)) :=
  ⟨⟨by decide, by decide⟩,
    (write_deterministic docW).2.2.2.2.1 "b" [("k", [("", "v"), ("de", "w")])] (by decide),
    (write_deterministic docW).2.2.2.2.2 [("k", [("", "v"), ("de", "w")])] "k"
      [("", "v"), ("de", "w")] (by decide)⟩

/-- C1: the claim fails on the code.  The encoder does not escape literal
occurrences of the separator inside an element before joining
(encoder.go:193-203 joins the `escape`d elements verbatim), so the
documented round trip `split(join(["a;b","c"], ";"), ";") == ["a;b","c"]`
does not hold: the left-hand side evaluates to `["a","b","c"]`.  (The
escape-tolerant branch of `split` at helper.go:75 exists for exactly
this round trip, but the encoder never produces the escape.) -/
theorem join_split_roundtrip_fails :
    split (joinEncodedStrings ["a;b", "c"] ";") ";" = ["a", "b", "c"] ∧
      split (joinEncodedStrings ["a;b", "c"] ";") ";" ≠ ["a;b", "c"] := by
  constructor
  · decide
  · decide

theorem replacePair_cons_no (p q d c : Char) (X : List Char)
    (h : ¬(c = p ∧ X.head? = some q)) :
    replacePair p q d (c :: X) = c :: replacePair p q d X := by
  cases X with
  | nil => rfl
  | cons y ys =>
      rw [replacePair, if_neg]
      rintro ⟨hc, hy⟩
      exact h ⟨hc, by subst hy; rfl⟩

theorem replacePair_cons_yes (p q d : Char) (X : List Char) :
    replacePair p q d (p :: q :: X) = d :: replacePair p q d X := by
  rw [replacePair, if_pos ⟨rfl, rfl⟩]

/-- One `unescape` pass over a well-formed token stream replaces exactly
the escape tokens of its letter. -/
theorem replacePair_flatToks (L d : Char) (hL : L ∈ escLetters) :
    ∀ ts : List ETok, okToks ts →
      replacePair '\\' L d (flatToks ts) = flatToks (ts.map (substTok L d)) := by
  intro ts
  induction ts with
  | nil => intro _; rfl
  | cons t rest ih =>
      intro hok
      cases t with
      | esc l =>
          obtain ⟨hl, hrest⟩ := hok
          show replacePair '\\' L d ('\\' :: l :: flatToks rest) = _
          by_cases heq : l = L
          · subst heq
            rw [replacePair_cons_yes, ih hrest]
            simp [flatToks, substTok, ETok.flat]
          · rw [replacePair_cons_no _ _ _ _ _ (by rintro ⟨-, h2⟩; simp at h2; exact heq h2)]
            rw [replacePair_cons_no _ _ _ _ _
              (by rintro ⟨hc, -⟩; subst hc; revert hl; decide)]
            rw [ih hrest]
            simp [flatToks, substTok, ETok.flat, heq]
      | lit c =>
          obtain ⟨hc, hrest⟩ := hok
          show replacePair '\\' L d (c :: flatToks rest) = _
          rw [replacePair_cons_no _ _ _ _ _ ?hno]
          case hno =>
            rintro ⟨hcb, hhead⟩
            subst hcb
            have hnl := hc rfl
            cases rest with
            | nil => simp [flatToks] at hhead
            | cons t2 rest2 =>
                cases t2 with
                | lit x =>
                    simp only [flatToks, List.flatMap_cons, ETok.flat] at hhead
                    simp only [List.cons_append, List.head?_cons, Option.some.injEq] at hhead
                    subst hhead
                    exact absurd hL (by simpa [headNotLitLetter] using hnl)
                | esc l2 =>
                    simp only [flatToks, List.flatMap_cons, ETok.flat] at hhead
                    simp only [List.cons_append, List.head?_cons, Option.some.injEq] at hhead
                    subst hhead
                    revert hL; decide
          rw [ih hrest]
          simp [flatToks, substTok, ETok.flat]

theorem headNotLitLetter_map (L d : Char) (hd : d ∉ escLetters) (ts : List ETok)
    (h : headNotLitLetter ts) : headNotLitLetter (ts.map (substTok L d)) := by
  cases ts with
  | nil => trivial
  | cons t rest =>
      cases t with
      | lit x => simpa [substTok, headNotLitLetter] using h
      | esc l =>
          by_cases heq : l = L <;> simp [substTok, headNotLitLetter, heq, hd]

theorem okToks_map (L d : Char) (hd1 : d ∉ escLetters) (hd2 : d ≠ '\\') :
    ∀ ts : List ETok, okToks ts → okToks (ts.map (substTok L d)) := by
  intro ts
  induction ts with
  | nil => intro _; trivial
  | cons t rest ih =>
      intro hok
      cases t with
      | esc l =>
          obtain ⟨hl, hrest⟩ := hok
          by_cases heq : l = L
          · subst heq
            simp only [List.map_cons, substTok, if_pos rfl]
            exact ⟨fun h => absurd h hd2, ih hrest⟩
          · simp only [List.map_cons, substTok, if_neg heq]
            exact ⟨hl, ih hrest⟩
      | lit c =>
          obtain ⟨hc, hrest⟩ := hok
          simp only [List.map_cons, substTok]
          exact ⟨fun hb => headNotLitLetter_map L d hd1 rest (hc hb), ih hrest⟩

theorem replaceChar_eq_flatMap (p : Char) (repl : List Char) (s : List Char) :
    replaceChar p repl s = s.flatMap (fun c => if c = p then repl else [c]) := by
  induction s with
  | nil => rfl
  | cons c rest ih => rw [replaceChar, ih]; rfl

theorem escRepl3_eq (s : List Char) :
    replaceChar '\t' ['\\', 't']
        (replaceChar '\r' ['\\', 'r'] (replaceChar '\n' ['\\', 'n'] s)) =
      s.flatMap enc3 := by
  induction s with
  | nil => rfl
  | cons c rest ih =>
      simp only [replaceChar_eq_flatMap] at ih ⊢
      simp only [List.flatMap_cons, List.flatMap_append]
      rw [ih]
      congr 1
      by_cases h1 : c = '\n'
      · subst h1; rfl
      · by_cases h2 : c = '\r'
        · subst h2; rfl
        · by_cases h3 : c = '\t'
          · subst h3; rfl
          · simp [h1, h2, h3, enc3]

theorem takeWhile_append_all {p : Char → Bool} (as bs : List Char)
    (h1 : ∀ a ∈ as, p a = true) (h2 : ∀ b, bs.head? = some b → p b = false) :
    (as ++ bs).takeWhile p = as ∧ (as ++ bs).dropWhile p = bs := by
  induction as with
  | nil =>
      simp only [List.nil_append]
      cases bs with
      | nil => simp
      | cons b bs' =>
          have := h2 b rfl
          simp [List.takeWhile, List.dropWhile, this]
  | cons a as' ih =>
      have ha := h1 a (by simp)
      obtain ⟨iht, ihd⟩ := ih (fun x hx => h1 x (by simp [hx]))
      simp [List.takeWhile, List.dropWhile, ha, iht, ihd]

theorem head?_dropWhile_false {p : Char → Bool} (s : List Char) (b : Char)
    (h : (s.dropWhile p).head? = some b) : p b = false := by
  induction s with
  | nil => simp [List.dropWhile] at h
  | cons c rest ih =>
      rw [List.dropWhile] at h
      cases hc : p c
      · simp only [hc] at h
        simp only [List.head?_cons, Option.some.injEq] at h
        subst h
        exact hc
      · simp only [hc] at h
        exact ih h

theorem mem_takeWhile_true {p : Char → Bool} (s : List Char) (c : Char)
    (h : c ∈ s.takeWhile p) : p c = true := by
  induction s with
  | nil => simp [List.takeWhile] at h
  | cons a rest ih =>
      rw [List.takeWhile] at h
      cases ha : p a
      · simp only [ha] at h
        simp at h
      · simp only [ha] at h
        rcases List.mem_cons.mp h with h | h
        · subst h; exact ha
        · exact ih h

theorem flatMap_enc3_of_spaces (l : List Char) (h : ∀ c ∈ l, c = ' ') :
    l.flatMap enc3 = l := by
  induction l with
  | nil => rfl
  | cons c rest ih =>
      have hc := h c (by simp)
      subst hc
      rw [List.flatMap_cons, ih (fun x hx => h x (by simp [hx]))]
      rfl

theorem head_enc3_not_ws (c : Char) (hg : goodChar c = true) (hne : ¬ c = ' ') :
    ∀ b, (enc3 c).head? = some b → isRegexSpace b = false := by
  intro b hb
  unfold enc3 at hb
  by_cases h1 : c = '\n'
  · simp [h1] at hb; subst hb; decide
  · by_cases h2 : c = '\r'
    · simp [h1, h2] at hb; subst hb; decide
    · by_cases h3 : c = '\t'
      · simp [h1, h2, h3] at hb; subst hb; decide
      · simp [h1, h2, h3] at hb
        subst hb
        unfold goodChar at hg
        simp only [decide_eq_true_eq, Bool.or_eq_true, decide_eq_true_eq] at hg
        rcases hg with hg | hg | hg | hg | hg
        · exact absurd hg hne
        · exact absurd hg h3
        · exact absurd hg h1
        · exact absurd hg h2
        · have hrs : isRegexSpace c = true → False := by
            intro hC
            simp only [isRegexSpace, Bool.or_eq_true, decide_eq_true_eq] at hC
            rcases hC with h | h | h | h | h <;> (subst h; revert hg; decide)
          cases hF : isRegexSpace c
          · rfl
          · exact (hrs hF).elim

theorem last_enc3_not_ws (c : Char) (hg : goodChar c = true) (hne : ¬ c = ' ') :
    ∀ b, (enc3 c).getLast? = some b → isRegexSpace b = false := by
  intro b hb
  unfold enc3 at hb
  by_cases h1 : c = '\n'
  · simp [h1] at hb; subst hb; decide
  · by_cases h2 : c = '\r'
    · simp [h1, h2] at hb; subst hb; decide
    · by_cases h3 : c = '\t'
      · simp [h1, h2, h3] at hb; subst hb; decide
      · simp [h1, h2, h3] at hb
        subst hb
        exact head_enc3_not_ws c hg hne c (by
          unfold enc3
          simp [h1, h2, h3])

theorem getLast?_flatMap_enc3 (l : List Char) :
    ∀ b, (l.flatMap enc3).getLast? = some b →
      ∃ cL ∈ l, (enc3 cL).getLast? = some b := by
  induction l using List.reverseRecOn with
  | nil => intro b hb; simp at hb
  | append_singleton l' cL ih =>
      intro b hb
      rw [List.flatMap_append] at hb
      have hne : enc3 cL ≠ [] := by
        unfold enc3
        by_cases h1 : cL = '\n' <;> by_cases h2 : cL = '\r' <;> by_cases h3 : cL = '\t' <;>
          simp [h1, h2, h3]
      rw [List.flatMap_cons, List.flatMap_nil, List.append_nil] at hb
      rw [List.getLast?_append_of_ne_nil _ hne] at hb
      exact ⟨cL, by simp, hb⟩

theorem getLast?_flatMap_enc3_eq (l : List Char) (cL : Char) (h : l.getLast? = some cL) :
    (l.flatMap enc3).getLast? = (enc3 cL).getLast? := by
  induction l using List.reverseRecOn with
  | nil => simp at h
  | append_singleton l' c ih =>
      rw [List.getLast?_concat] at h
      have hc : c = cL := by simpa using h
      rw [List.flatMap_append, List.flatMap_cons, List.flatMap_nil, List.append_nil]
      have hne : enc3 c ≠ [] := by
        unfold enc3
        by_cases h1 : c = '\n' <;> by_cases h2 : c = '\r' <;> by_cases h3 : c = '\t' <;>
          simp [h1, h2, h3]
      rw [List.getLast?_append_of_ne_nil _ hne, hc]

theorem flatToks_map (f : Char → ETok) (l : List Char) :
    flatToks (l.map f) = l.flatMap (fun c => (f c).flat) := by
  induction l with
  | nil => rfl
  | cons c rest ih =>
      simp only [List.map_cons, flatToks, List.flatMap_cons] at ih ⊢
      rw [ih]

theorem flat_midTok (c : Char) : (midTok c).flat = enc3 c := by
  unfold midTok enc3
  by_cases h1 : c = '\n' <;> by_cases h2 : c = '\r' <;> by_cases h3 : c = '\t' <;>
    simp [h1, h2, h3, ETok.flat]

/-- `escape s` is exactly the flattening of the token stream `toksOf s`
for strings over the C4 character class. -/
theorem escapeL_eq_flatToks (s : List Char) (hg : ∀ c ∈ s, goodChar c) :
    escapeL s = flatToks (toksOf s) := by
  simp only [escapeL, toksOf]
  rw [escRepl3_eq]
  have hmemSp1 : ∀ c ∈ s.takeWhile (fun c => c = ' '), c = ' ' := fun c hc => by
    simpa using mem_takeWhile_true _ _ hc
  have hsplit := List.takeWhile_append_dropWhile (p := fun c => decide (c = ' ')) (l := s)
  set sp1 := s.takeWhile (fun c => c = ' ') with hsp1Def
  set rest := s.dropWhile (fun c => c = ' ') with hrestDef
  have hrevsplit := List.takeWhile_append_dropWhile
    (p := fun c => decide (c = ' ')) (l := rest.reverse)
  set mid := (rest.reverse.dropWhile (fun c => c = ' ')).reverse with hmidDef
  set sp2 := (rest.reverse.takeWhile (fun c => c = ' ')).reverse with hsp2Def
  have hmemSp2 : ∀ c ∈ sp2, c = ' ' := by
    intro c hc
    rw [hsp2Def] at hc
    simpa using mem_takeWhile_true _ _ (List.mem_reverse.mp hc)
  have hrestSplit : rest = mid ++ sp2 := by
    rw [hmidDef, hsp2Def, ← List.reverse_append, hrevsplit, List.reverse_reverse]
  have hmemRest : ∀ c ∈ rest, goodChar c := by
    intro c hc
    exact hg c (by rw [← hsplit]; exact List.mem_append_right _ hc)
  have hmemMid : ∀ c ∈ mid, goodChar c := by
    intro c hc
    exact hmemRest c (by rw [hrestSplit]; exact List.mem_append_left _ hc)
  -- the encoded string splits as sp1 ++ (mid.flatMap enc3 ++ sp2)
  have hsEq : s.flatMap enc3 = sp1 ++ (mid.flatMap enc3 ++ sp2) := by
    conv_lhs => rw [← hsplit]
    rw [List.flatMap_append, flatMap_enc3_of_spaces sp1 hmemSp1]
    congr 1
    rw [hrestSplit, List.flatMap_append, flatMap_enc3_of_spaces sp2 hmemSp2]
  rw [hsEq]
  -- head of the middle part is not regexp whitespace
  have hheadX : ∀ b, ((mid.flatMap enc3 ++ sp2) : List Char).head? = some b →
      isRegexSpace b = false := by
    intro b hb
    cases hmidnil : mid with
    | nil =>
        -- then rest is all spaces yet starts with a non-space, so rest = []
        cases hrestnil : rest with
        | nil =>
            rw [hmidnil] at hb
            have : sp2 = [] := by
              rw [hsp2Def, hrestnil]
              rfl
            rw [this] at hb
            simp at hb
        | cons c0 rest' =>
            have hc0 : ¬ (c0 = ' ') := by
              have := head?_dropWhile_false (p := fun c => decide (c = ' ')) s c0
                (by rw [← hrestDef, hrestnil]; rfl)
              simpa using this
            have : c0 ∈ sp2 := by
              have : c0 ∈ rest := by rw [hrestnil]; simp
              rw [hrestSplit, hmidnil] at this
              simpa using this
            exact absurd (hmemSp2 c0 this) hc0
    | cons m0 mid' =>
        have hm0 : m0 ∈ mid := by rw [hmidnil]; simp
        have hm0rest : m0 ∈ rest := by rw [hrestSplit]; exact List.mem_append_left _ hm0
        -- m0 is the head of rest, hence not a space
        have hm0head : rest.head? = some m0 := by
          rw [hrestSplit, hmidnil]
          rfl
        have hm0ns : ¬ (m0 = ' ') := by
          have := head?_dropWhile_false (p := fun c => decide (c = ' ')) s m0
            (by rw [← hrestDef]; exact hm0head)
          simpa using this
        have hne : enc3 m0 ≠ [] := by
          unfold enc3
          by_cases h1 : m0 = '\n' <;> by_cases h2 : m0 = '\r' <;> by_cases h3 : m0 = '\t' <;>
            simp [h1, h2, h3]
        rw [hmidnil] at hb
        rw [List.flatMap_cons, List.append_assoc, List.head?_append_of_ne_nil _ hne] at hb
        exact head_enc3_not_ws m0 (hmemMid m0 hm0) hm0ns b hb
  -- trailing part of the encoded middle is not regexp whitespace
  have hlastX : ∀ b, ((mid.flatMap enc3).reverse : List Char).head? = some b →
      isRegexSpace b = false := by
    intro b hb
    rw [List.head?_reverse] at hb
    cases hmidnil : mid.getLast? with
    | none =>
        have hmide : mid = [] := List.getLast?_eq_none_iff.mp hmidnil
        rw [hmide] at hb
        simp at hb
    | some cL =>
        have hcL : cL ∈ mid := List.mem_of_getLast?_eq_some hmidnil
        have hcLns : ¬ (cL = ' ') := by
          have hdw : mid.getLast? = (rest.reverse.dropWhile (fun c => c = ' ')).head? := by
            rw [hmidDef, List.getLast?_reverse]
          rw [hdw] at hmidnil
          have := head?_dropWhile_false (p := fun c => decide (c = ' ')) rest.reverse cL
            (by exact hmidnil)
          simpa using this
        rw [getLast?_flatMap_enc3_eq mid cL hmidnil] at hb
        exact last_enc3_not_ws cL (hmemMid cL hcL) hcLns b hb
  -- now evaluate replaceSpacesL on sp1 ++ (mid.flatMap enc3 ++ sp2)
  have hws1 : ∀ a ∈ sp1, isRegexSpace a = true := by
    intro a ha
    have := hmemSp1 a ha
    subst this
    decide
  obtain ⟨htw1, hdw1⟩ := takeWhile_append_all (p := isRegexSpace) sp1
    (mid.flatMap enc3 ++ sp2) hws1 hheadX
  have hws2 : ∀ a ∈ sp2.reverse, isRegexSpace a = true := by
    intro a ha
    have := hmemSp2 a (List.mem_reverse.mp ha)
    subst this
    decide
  obtain ⟨htw2, hdw2⟩ := takeWhile_append_all (p := isRegexSpace) sp2.reverse
    (mid.flatMap enc3).reverse hws2 hlastX
  simp only [replaceSpacesL]
  rw [htw1, hdw1]
  rw [List.reverse_append, htw2, hdw2]
  rw [List.reverse_reverse, List.reverse_reverse]
  rw [flatToks, List.flatMap_append, List.flatMap_append]
  have e1 := flatToks_map (fun _ => ETok.esc 's') sp1
  have e2 := flatToks_map midTok mid
  have e3 := flatToks_map (fun _ => ETok.esc 's') sp2
  unfold flatToks at e1 e2 e3
  rw [e1, e2, e3]
  simp only [ETok.flat]
  show (sp1.flatMap fun _ => ['\\', 's']) ++ mid.flatMap enc3 ++ (sp2.flatMap fun _ => ['\\', 's']) =
    (sp1.flatMap fun _ => ['\\', 's']) ++ (mid.flatMap fun c => (midTok c).flat) ++
      (sp2.flatMap fun _ => ['\\', 's'])
  rw [show (fun c => (midTok c).flat) = enc3 from funext fun c => flat_midTok c]

theorem noEscPair_tail (a : Char) (l : List Char) (h : noEscPair (a :: l)) : noEscPair l := by
  cases l with
  | nil => trivial
  | cons b rest => exact h.2

theorem noEscPair_append_right : ∀ (xs ys : List Char), noEscPair (xs ++ ys) → noEscPair ys
  | [], _, h => h
  | x :: xs, ys, h => noEscPair_append_right xs ys (noEscPair_tail x _ (by simpa using h))

theorem noEscPair_append_left : ∀ (xs ys : List Char), noEscPair (xs ++ ys) → noEscPair xs
  | [], _, _ => trivial
  | [_], _, _ => trivial
  | _ :: b :: rest, ys, h => ⟨h.1, noEscPair_append_left (b :: rest) ys h.2⟩

theorem okToks_escs (l : List Char) : okToks (l.map fun _ => ETok.esc 's') := by
  induction l with
  | nil => trivial
  | cons c rest ih => exact ⟨by decide, ih⟩

theorem headNotLitLetter_escs (l : List Char) :
    headNotLitLetter (l.map fun _ => ETok.esc 's') := by
  cases l <;> trivial

theorem getLast?_escs (l : List Char) (t : ETok)
    (h : (l.map fun _ => ETok.esc 's').getLast? = some t) : t = ETok.esc 's' := by
  induction l using List.reverseRecOn with
  | nil => simp at h
  | append_singleton l' c ih =>
      rw [List.map_append] at h
      simp at h
      exact h.symm

theorem okToks_midToks : ∀ (l : List Char), noEscPair l → okToks (l.map midTok)
  | [], _ => trivial
  | c :: rest, h => by
      have ihrest : okToks (rest.map midTok) := okToks_midToks rest (noEscPair_tail c rest h)
      rw [List.map_cons]
      by_cases h1 : c = '\n'
      · rw [show midTok c = .esc 'n' by simp [midTok, h1]]
        exact ⟨by decide, ihrest⟩
      · by_cases h2 : c = '\r'
        · rw [show midTok c = .esc 'r' by simp [midTok, h1, h2]]
          exact ⟨by decide, ihrest⟩
        · by_cases h3 : c = '\t'
          · rw [show midTok c = .esc 't' by simp [midTok, h1, h2, h3]]
            exact ⟨by decide, ihrest⟩
          · rw [show midTok c = .lit c by simp [midTok, h1, h2, h3]]
            refine ⟨?_, ihrest⟩
            intro hb
            cases rest with
            | nil => trivial
            | cons c2 rest2 =>
                rw [List.map_cons]
                by_cases hc2 : c2 = '\n' ∨ c2 = '\r' ∨ c2 = '\t'
                · rcases hc2 with hc2 | hc2 | hc2
                  · rw [show midTok c2 = .esc 'n' by simp [midTok, hc2]]
                    trivial
                  · rw [show midTok c2 = .esc 'r' by simp [midTok, hc2]]
                    trivial
                  · rw [show midTok c2 = .esc 't' by simp [midTok, hc2]]
                    trivial
                · push_neg at hc2
                  obtain ⟨hn, hr, ht⟩ := hc2
                  rw [show midTok c2 = .lit c2 by simp [midTok, hn, hr, ht]]
                  show c2 ∉ escLetters
                  intro hmem
                  exact h.1 ⟨hb, hmem⟩

theorem okToks_append : ∀ (ts1 ts2 : List ETok), okToks ts1 → okToks ts2 →
    (ts1.getLast? = some (ETok.lit '\\') → headNotLitLetter ts2) → okToks (ts1 ++ ts2)
  | [], _, _, h2, _ => h2
  | .esc l :: rest, ts2, h1, h2, hb => by
      refine ⟨h1.1, okToks_append rest ts2 h1.2 h2 ?_⟩
      intro hlast
      apply hb
      cases rest with
      | nil => simp at hlast
      | cons t2 r2 =>
          rw [List.getLast?_cons_cons]
          exact hlast
  | .lit c :: rest, ts2, h1, h2, hb => by
      refine ⟨?_, okToks_append rest ts2 h1.2 h2 ?_⟩
      · intro hc
        cases rest with
        | nil =>
            show headNotLitLetter ts2
            exact hb (by subst hc; rfl)
        | cons t2 r2 =>
            have hh := h1.1 hc
            show headNotLitLetter ((t2 :: r2) ++ ts2)
            cases t2 with
            | lit x =>
                simp only [headNotLitLetter] at hh ⊢
                exact hh
            | esc l2 => trivial
      · intro hlast
        apply hb
        cases rest with
        | nil => simp at hlast
        | cons t2 r2 =>
            rw [List.getLast?_cons_cons]
            exact hlast

theorem okToks_toksOf (s : List Char) (h2 : noEscPair s) : okToks (toksOf s) := by
  simp only [toksOf]
  set rest := s.dropWhile (fun c => c = ' ') with hrestDef
  have hrevsplit := List.takeWhile_append_dropWhile
    (p := fun c => decide (c = ' ')) (l := rest.reverse)
  have hsplit := List.takeWhile_append_dropWhile (p := fun c => decide (c = ' ')) (l := s)
  have hnpRest : noEscPair rest :=
    noEscPair_append_right _ _ (by rw [hsplit]; exact h2)
  have hrestSplit : rest =
      (rest.reverse.dropWhile (fun c => c = ' ')).reverse ++
        (rest.reverse.takeWhile (fun c => c = ' ')).reverse := by
    rw [← List.reverse_append, hrevsplit, List.reverse_reverse]
  have hnpMid : noEscPair ((rest.reverse.dropWhile (fun c => c = ' ')).reverse) :=
    noEscPair_append_left _ _ (by rw [← hrestSplit]; exact hnpRest)
  apply okToks_append
  · apply okToks_append
    · exact okToks_escs _
    · exact okToks_midToks _ hnpMid
    · intro hlast
      exact absurd (getLast?_escs _ _ hlast) (by decide)
  · exact okToks_escs _
  · intro _
    exact headNotLitLetter_escs _

/-- The four `ReplaceAll` passes of `unescape` on a well-formed token
stream substitute the four escapes. -/
theorem unescapeL_flatToks (ts : List ETok) (hok : okToks ts) :
    unescapeL (flatToks ts) =
      flatToks ((((ts.map (substTok 's' ' ')).map (substTok 'n' '\n')).map
        (substTok 'r' '\r')).map (substTok 't' '\t')) := by
  unfold unescapeL
  rw [replacePair_flatToks 's' ' ' (by decide) ts hok]
  have hok1 := okToks_map 's' ' ' (by decide) (by decide) ts hok
  rw [replacePair_flatToks 'n' '\n' (by decide) _ hok1]
  have hok2 := okToks_map 'n' '\n' (by decide) (by decide) _ hok1
  rw [replacePair_flatToks 'r' '\r' (by decide) _ hok2]
  have hok3 := okToks_map 'r' '\r' (by decide) (by decide) _ hok2
  rw [replacePair_flatToks 't' '\t' (by decide) _ hok3]

/-- The fully substituted token of one original character flattens back
to that character. -/
theorem flat_subst4_midTok (c : Char) :
    (substTok 't' '\t' (substTok 'r' '\r' (substTok 'n' '\n'
      (substTok 's' ' ' (midTok c))))).flat = [c] := by
  by_cases h1 : c = '\n'
  · subst h1; rfl
  · by_cases h2 : c = '\r'
    · subst h2; rfl
    · by_cases h3 : c = '\t'
      · subst h3; rfl
      · rw [show midTok c = .lit c by simp [midTok, h1, h2, h3]]
        rfl

theorem map_subst4 (ts : List ETok) :
    (((ts.map (substTok 's' ' ')).map (substTok 'n' '\n')).map
      (substTok 'r' '\r')).map (substTok 't' '\t') = ts.map subst4 := by
  simp only [List.map_map]
  rfl

theorem flatToks_append (a b : List ETok) :
    flatToks (a ++ b) = flatToks a ++ flatToks b := List.flatMap_append _ _ _

theorem flatToks_subst4_escs (l : List Char) (hl : ∀ c ∈ l, c = ' ') :
    flatToks ((l.map fun _ => ETok.esc 's').map subst4) = l := by
  induction l with
  | nil => rfl
  | cons c cs ih =>
      have hc := hl c (by simp)
      subst hc
      simp only [List.map_cons]
      rw [show flatToks (subst4 (ETok.esc 's') :: ((cs.map fun _ => ETok.esc 's').map subst4)) =
          (subst4 (ETok.esc 's')).flat ++
            flatToks ((cs.map fun _ => ETok.esc 's').map subst4) from rfl]
      rw [ih (fun x hx => hl x (by simp [hx]))]
      rfl

theorem flatToks_subst4_mid (l : List Char) :
    flatToks ((l.map midTok).map subst4) = l := by
  induction l with
  | nil => rfl
  | cons c cs ih =>
      simp only [List.map_cons]
      rw [show flatToks (subst4 (midTok c) :: ((cs.map midTok).map subst4)) =
          (subst4 (midTok c)).flat ++ flatToks ((cs.map midTok).map subst4) from rfl]
      rw [ih, show (subst4 (midTok c)).flat = [c] from flat_subst4_midTok c]
      rfl

theorem flatToks_subst4_toksOf (s : List Char) :
    flatToks ((((toksOf s).map (substTok 's' ' ')).map (substTok 'n' '\n')).map
      (substTok 'r' '\r') |>.map (substTok 't' '\t')) = s := by
  rw [map_subst4]
  simp only [toksOf]
  rw [List.map_append, List.map_append, flatToks_append, flatToks_append]
  rw [flatToks_subst4_escs _ (fun c hc => by simpa using mem_takeWhile_true _ _ hc)]
  rw [flatToks_subst4_escs _ (fun c hc => by
    simpa using mem_takeWhile_true _ _ (List.mem_reverse.mp hc))]
  rw [flatToks_subst4_mid]
  have hrevsplit := List.takeWhile_append_dropWhile
    (p := fun c => decide (c = ' ')) (l := (s.dropWhile (fun c => c = ' ')).reverse)
  have hsplit := List.takeWhile_append_dropWhile (p := fun c => decide (c = ' ')) (l := s)
  conv_rhs => rw [← hsplit]
  rw [List.append_assoc]
  congr 1
  rw [← List.reverse_append, hrevsplit, List.reverse_reverse]

/-- C4: `unescape (escape s) = s` for every string over space, tab,
newline, carriage return and the printable characters, provided `s`
contains no literal backslash immediately followed by one of the escape
letters `s`, `n`, `r`, `t` (the documented ambiguous exception). -/
theorem escape_unescape_id (s : String) (h1 : ∀ c ∈ s.data, goodChar c)
    (h2 : noEscPair s.data) : unescape (escape s) = s := by
  unfold unescape escape
  show String.mk (unescapeL (escapeL s.data)) = s
  rw [escapeL_eq_flatToks s.data h1]
  rw [unescapeL_flatToks _ (okToks_toksOf s.data h2)]
  rw [flatToks_subst4_toksOf]

/-- C4, witnessed on a string exercising leading/trailing spaces, every
escaped control character, interior spaces and a literal backslash. -/
theorem escape_unescape_id_witness :
    (∀ c ∈ ("  a\\ b\tc\r\n d " : String).data, goodChar c) ∧
      noEscPair ("  a\\ b\tc\r\n d " : String).data ∧
      unescape (escape "  a\\ b\tc\r\n d ") = "  a\\ b\tc\r\n d " :=
  ⟨by decide, by decide, escape_unescape_id _ (by decide) (by decide)⟩

end Keyfile

